import Mathlib

/-!
Verification of the diff/patch engine of the abstraction-ide repository.

Texts are modelled as lists of characters (`Str`), the logical content of the
JavaScript strings the source manipulates.  Every operation of the source is
translated into an executable Lean function:

* `jsSplit`       models `String.prototype.split` (string separator; an empty
                  separator splits into single characters, as in JS),
* `jsJoin`        models `Array.prototype.join`,
* `jsTrim`        models `String.prototype.trim` (the JS WhiteSpace and
                  LineTerminator characters),
* `splitLines`    models `text.split('\n')`,
* `DiffUtils.*`   the tiered patch applier (`searchAndReplace`,
                  `directlyApplyHunk`, `flexibleApplyHunk`, `applyHunk`,
                  `findDiffHunks`, `hunkToBeforeAfter`, `applyUnifiedDiff`),
* `DiffCalculator.calculateInternalDiff` the context-window line-scan diff
                  computer, and
* `TextProcessor.extractChanges` the positional change summarizer.

Loops of the source that are not structurally recursive are embedded with an
explicit fuel argument that bounds the number of iterations; at every call
site the fuel is set to a value provably at least the number of iterations
the loop performs, so the embedded function computes exactly what the loop
computes (the fuel-exhausted branch is unreachable from the entry points).
-/

/-- A JavaScript string, modelled by its list of characters. -/
abbrev Str := List Char

/-- Characters of a Lean string literal, used to write concrete texts. -/
def str (s : String) : Str := s.data

/-- The characters `String.prototype.trim` removes: the ECMAScript WhiteSpace
and LineTerminator sets. -/
def isJsWs (c : Char) : Bool :=
  c = ' ' || c = '\t' || c = '\n' || c = '\r' || c = '\x0b' || c = '\x0c' ||
  c = '\u00A0' || c = '\u1680' || c = '\u2000' || c = '\u2001' || c = '\u2002' ||
  c = '\u2003' || c = '\u2004' || c = '\u2005' || c = '\u2006' || c = '\u2007' ||
  c = '\u2008' || c = '\u2009' || c = '\u200A' || c = '\u2028' || c = '\u2029' ||
  c = '\u202F' || c = '\u205F' || c = '\u3000' || c = '\uFEFF'

/-- Model of `s.trim()`: drop JS whitespace from both ends. -/
def jsTrim (s : Str) : Str :=
  ((s.dropWhile isJsWs).reverse.dropWhile isJsWs).reverse

/-- Model of `text.split('\n')`: split at every newline; `""` gives `[""]`. -/
def splitLines : Str → List Str
  | [] => [[]]
  | c :: rest =>
    if c = '\n' then [] :: splitLines rest
    else
      match splitLines rest with
      | [] => [[c]]
      | p :: ps => (c :: p) :: ps

/-- Model of `array.join(sep)`. -/
def jsJoin (sep : Str) : List Str → Str
  | [] => []
  | [x] => x
  | x :: y :: rest => x ++ sep ++ jsJoin sep (y :: rest)

/-- Model of `lines.join('\n')`. -/
def joinLines (lines : List Str) : Str := jsJoin ['\n'] lines

/-- Worker for `jsSplit` with a non-empty separator: scan left to right, at
each position either consume a separator occurrence (leftmost, non-overlapping,
as `String.prototype.split` does) or move one character into the current
piece.  Each step consumes at least one character, so fuel `s.length`
suffices. -/
def jsSplitGo (sep : Str) : Nat → Str → List Str
  | _, [] => [[]]
  | 0, s => [s]
  | fuel + 1, c :: rest =>
    if sep.isPrefixOf (c :: rest) then
      [] :: jsSplitGo sep fuel (List.drop (sep.length - 1) rest)
    else
      match jsSplitGo sep fuel rest with
      | [] => [[c]]
      | p :: ps => (c :: p) :: ps

/-- Model of `content.split(search)`: for an empty separator JS splits into
the list of single characters (so `"".split("")` is `[]`); otherwise it
splits at every leftmost non-overlapping occurrence. -/
def jsSplit (content sep : Str) : List Str :=
  if sep = [] then content.map (fun c => [c])
  else jsSplitGo sep content.length content

/-- Decimal rendering of a number, as the JS template literal `${n}` does. -/
def natStrGo : Nat → Nat → Str → Str
  | 0, _, acc => acc
  | fuel + 1, n, acc =>
    let d := Char.ofNat (48 + n % 10)
    if n < 10 then d :: acc else natStrGo fuel (n / 10) (d :: acc)

/-- Decimal rendering of `n`. -/
def natStr (n : Nat) : Str := natStrGo (n + 1) n []

/-- The error hierarchy of the patch applier (`DiffError` and its two
subclasses thrown by the source; `MalformedDiffError` does not exist in the
code). -/
inductive DiffErr where
  | searchTextNotUnique (text : Str)
  | hunkApplyError (message hunk path : Str)
deriving DecidableEq

/-- Model of `DiffUtils.searchAndReplace`: split `content` on `search`; one
piece means no occurrence and the source returns the empty string; more than
two pieces means an ambiguous occurrence and it throws `SearchTextNotUnique`;
exactly two pieces are rejoined with `replace`. -/
def DiffUtils.searchAndReplace (content search replace : Str) : Except DiffErr Str :=
  let pieces := jsSplit content search
  if pieces.length = 1 then .ok []
  else if pieces.length > 2 then .error (.searchTextNotUnique search)
  else .ok (jsJoin replace pieces)

/-- Model of `DiffUtils.directlyApplyHunk`: `none` models the source's
`null` (anchor empty, the too-short-and-ambiguous guard, or a caught
`SearchTextNotUnique`); other errors are rethrown. -/
def DiffUtils.directlyApplyHunk (content before after : Str) : Except DiffErr (Option Str) :=
  let trimmedBefore := jsTrim before
  let trimmedAfter := jsTrim after
  if trimmedBefore = [] then .ok none
  else if trimmedBefore.length < 10 ∧ (jsSplit content trimmedBefore).length > 2 then .ok none
  else
    match DiffUtils.searchAndReplace content trimmedBefore trimmedAfter with
    | .ok result => .ok (some result)
    | .error (DiffErr.searchTextNotUnique _) => .ok none
    | .error e => .error e

/-- Inner loop of `getContextSizes`: for a fixed `total`, `pre` counts down
from its starting value to `0`, yielding `(pre, total - pre)`. -/
def DiffUtils.gcsInner (total : Nat) : Nat → List (Nat × Nat)
  | 0 => [(0, total)]
  | pre + 1 => (pre + 1, total - (pre + 1)) :: DiffUtils.gcsInner total pre

/-- Outer loop of `getContextSizes`: `total` counts down from its starting
value to `0`. -/
def DiffUtils.gcsOuter : Nat → List (Nat × Nat)
  | 0 => DiffUtils.gcsInner 0 0
  | total + 1 => DiffUtils.gcsInner (total + 1) (total + 1) ++ DiffUtils.gcsOuter total

/-- Model of the generator `DiffUtils.getContextSizes`: the list of
`(preContext, postContext)` pairs it yields, in order. -/
def DiffUtils.getContextSizes (lines : List Str) : List (Nat × Nat) :=
  DiffUtils.gcsOuter (min 5 lines.length)

/-- Model of `array.slice(-k)`: the last `k` elements, the whole array when
`k` is `0` (JS `-0` is `0`) or at least the length. -/
def jsSliceNeg (l : List Str) (k : Nat) : List Str :=
  if k = 0 then l else l.drop (l.length - k)

/-- Candidate loop of `DiffUtils.flexibleApplyHunk`: try each
`(preContext, postContext)` pair, build both the anchor and the replacement
from the `before` lines (the source slices `before` for both), return the
first `searchAndReplace` result, skip candidates that throw
`SearchTextNotUnique`, rethrow anything else. -/
def DiffUtils.flexibleGo (content : Str) (before : List Str) :
    List (Nat × Nat) → Except DiffErr (Option Str)
  | [] => .ok none
  | (preContext, postContext) :: rest =>
    let beforeText := jsTrim (joinLines (jsSliceNeg before preContext))
    let afterText := jsTrim (joinLines (before.take postContext))
    match DiffUtils.searchAndReplace content beforeText afterText with
    | .ok result => .ok (some result)
    | .error (DiffErr.searchTextNotUnique _) => DiffUtils.flexibleGo content before rest
    | .error e => .error e

/-- Model of `DiffUtils.flexibleApplyHunk`.  The source receives `after` but
never reads it: every candidate anchor and replacement is sliced from
`before`. -/
def DiffUtils.flexibleApplyHunk (content : Str) (before after : List Str) :
    Except DiffErr (Option Str) :=
  DiffUtils.flexibleGo content before (DiffUtils.getContextSizes before)

/-- Line loop of `DiffUtils.hunkToBeforeAfter`: empty lines and `@@` lines
are skipped; a space marker contributes the content to both views, `-` to
`before`, `+` to `after`, and any other first character is skipped. -/
def DiffUtils.hunkLinesToBA : List Str → List Str × List Str
  | [] => ([], [])
  | line :: rest =>
    let ba := DiffUtils.hunkLinesToBA rest
    if line = [] ∨ List.isPrefixOf ['@', '@'] line then ba
    else
      match line with
      | [] => ba
      | op :: content =>
        if op = ' ' then (content :: ba.1, content :: ba.2)
        else if op = '-' then (content :: ba.1, ba.2)
        else if op = '+' then (ba.1, content :: ba.2)
        else ba

/-- Model of `DiffUtils.hunkToBeforeAfter`. -/
def DiffUtils.hunkToBeforeAfter (hunk : Str) : List Str × List Str :=
  DiffUtils.hunkLinesToBA (splitLines hunk)

/-- Model of `DiffUtils.applyHunk`: try the direct tier, fall through to the
flexible tier when it returns `null`. -/
def DiffUtils.applyHunk (content hunk : Str) : Except DiffErr (Option Str) :=
  let ba := DiffUtils.hunkToBeforeAfter hunk
  match DiffUtils.directlyApplyHunk content (joinLines ba.1) (joinLines ba.2) with
  | .ok (some result) => .ok (some result)
  | .ok none => DiffUtils.flexibleApplyHunk content ba.1 ba.2
  | .error e => .error e

/-- Loop of `DiffUtils.findDiffHunks`: collect lines from each `@@` line on,
flushing the current hunk when the next line starts a new `@@` header and at
the end of the input. -/
def DiffUtils.fdhGo : List Str → List Str → Bool → List Str → List Str
  | [], currentHunk, _, hunks =>
    if currentHunk.isEmpty then hunks else hunks ++ [joinLines currentHunk]
  | line :: rest, currentHunk, inHunk, hunks =>
    let atHeader := List.isPrefixOf ['@', '@'] line
    let hunks1 := if atHeader && !currentHunk.isEmpty then hunks ++ [joinLines currentHunk] else hunks
    let currentHunk1 := if atHeader then [] else currentHunk
    let inHunk1 := if atHeader then true else inHunk
    let currentHunk2 := if inHunk1 then currentHunk1 ++ [line] else currentHunk1
    let nextIsHeader :=
      match rest with
      | next :: _ => List.isPrefixOf ['@', '@'] next
      | [] => false
    if inHunk1 && nextIsHeader then
      DiffUtils.fdhGo rest [] false (hunks1 ++ [joinLines currentHunk2])
    else
      DiffUtils.fdhGo rest currentHunk2 inHunk1 hunks1

/-- Model of `DiffUtils.findDiffHunks`. -/
def DiffUtils.findDiffHunks (diff : Str) : List Str :=
  DiffUtils.fdhGo (splitLines diff) [] false []

/-- Hunk loop of `DiffUtils.applyUnifiedDiff`: apply each hunk to the
cumulative result; a hunk on which `applyHunk` returns `null` raises
`HunkApplyError` for the whole patch. -/
def DiffUtils.applyDiffGo : List Str → Str → Except DiffErr Str
  | [], result => .ok result
  | hunk :: rest, result =>
    match DiffUtils.applyHunk result hunk with
    | .ok (some newContent) => DiffUtils.applyDiffGo rest newContent
    | .ok none => .error (.hunkApplyError (str "Failed to apply hunk") hunk (str "file"))
    | .error e => .error e

/-- Model of `DiffUtils.applyUnifiedDiff`: a blank diff is a no-op; the
errors thrown inside are subclasses of `DiffError` and are rethrown by the
source's catch block. -/
def DiffUtils.applyUnifiedDiff (originalText unifiedDiff : Str) : Except DiffErr Str :=
  if jsTrim unifiedDiff = [] then .ok originalText
  else DiffUtils.applyDiffGo (DiffUtils.findDiffHunks unifiedDiff) originalText

/-- The `contextLines` constant of `DiffCalculator.calculateInternalDiff`. -/
def DiffCalculator.contextLines : Nat := 3

/-- Look-ahead loop of `calculateInternalDiff`, over the suffixes of the two
line lists from the current cursors.  Returns how many lines it advanced on
each side and the final `changeFound` flag.  `hunkLinesLen` is the length of
the `hunkLines` array at loop time (always `0` in the source, since lines are
only pushed after the look-ahead).  Each iteration advances at least one
side, so fuel `os.length + ns.length` suffices. -/
def DiffCalculator.lookAheadGo (hunkLinesLen : Nat) :
    Nat → List Str → List Str → Bool → Nat × Nat × Bool
  | _, [], [], changeFound => (0, 0, changeFound)
  | 0, _, _, changeFound => (0, 0, changeFound)
  | fuel + 1, a :: as, b :: bs, changeFound =>
    if a = b then
      if (!changeFound) ∧ hunkLinesLen ≥ DiffCalculator.contextLines * 2 then
        (0, 0, changeFound)
      else
        let r := DiffCalculator.lookAheadGo hunkLinesLen fuel as bs changeFound
        (r.1 + 1, r.2.1 + 1, r.2.2)
    else
      let r := DiffCalculator.lookAheadGo hunkLinesLen fuel as bs true
      (r.1 + 1, r.2.1 + 1, r.2.2)
  | fuel + 1, _ :: as, [], _ =>
    let r := DiffCalculator.lookAheadGo hunkLinesLen fuel as [] true
    (r.1 + 1, r.2.1, r.2.2)
  | fuel + 1, [], _ :: bs, _ =>
    let r := DiffCalculator.lookAheadGo hunkLinesLen fuel [] bs true
    (r.1, r.2.1 + 1, r.2.2)

/-- Leading-context loop of `calculateInternalDiff`: for `k` from `0`, while
`k < contextLines` and `hunkStartOld + k < i`, push the old line at
`hunkStartOld + k` with a space marker.  `k` is bounded by `contextLines`,
which also bounds the fuel. -/
def DiffCalculator.leadCtxGo (ol : List Str) (hunkStartOld i : Nat) :
    Nat → Nat → List Str
  | 0, _ => []
  | fuel + 1, k =>
    if k < DiffCalculator.contextLines ∧ hunkStartOld + k < i then
      (' ' :: ol.getD (hunkStartOld + k) []) ::
        DiffCalculator.leadCtxGo ol hunkStartOld i fuel (k + 1)
    else []

/-- State of the process-changes loop of `calculateInternalDiff`. -/
structure DiffCalculator.ProcState where
  hunkLines : List Str
  i : Nat
  j : Nat
  oldCount : Nat
  newCount : Nat
  foundChange : Bool

/-- Process-changes loop of `calculateInternalDiff`: while `i < lAO` or
`j < lAN`, matching in-range lines are pushed as context, otherwise the old
line (when `i < lAO`) is pushed removed and the new line (when `j < lAN`)
pushed added, setting `foundChange`.  Every iteration advances `i` or `j`,
and both stay bounded by the list lengths, so fuel
`ol.length + nl.length` suffices. -/
def DiffCalculator.procGo (ol nl : List Str) (lAO lAN : Nat) :
    Nat → Nat → Nat → List Str → Nat → Nat → Bool → DiffCalculator.ProcState
  | 0, i, j, acc, oc, nc, fc => ⟨acc, i, j, oc, nc, fc⟩
  | fuel + 1, i, j, acc, oc, nc, fc =>
    if i < lAO ∨ j < lAN then
      if i < ol.length ∧ j < nl.length ∧ ol.getD i [] = nl.getD j [] then
        DiffCalculator.procGo ol nl lAO lAN fuel (i + 1) (j + 1)
          (acc ++ [' ' :: ol.getD i []]) (oc + 1) (nc + 1) fc
      else
        let s1 : List Str × Nat × Nat :=
          if i < lAO then (acc ++ ['-' :: ol.getD i []], i + 1, oc + 1) else (acc, i, oc)
        let s2 : List Str × Nat × Nat :=
          if j < lAN then (s1.1 ++ ['+' :: nl.getD j []], j + 1, nc + 1) else (s1.1, j, nc)
        DiffCalculator.procGo ol nl lAO lAN fuel s1.2.1 s2.2.1 s2.1 s1.2.2 s2.2.2 true
    else ⟨acc, i, j, oc, nc, fc⟩

/-- The hunk header line, from the template literal
`@@ -${hunkStartOld + 1},${oldCount} +${hunkStartNew + 1},${newCount} @@`
(without its trailing newline, which is appended when the hunk string is
assembled). -/
def DiffCalculator.mkHeaderLine (hunkStartOld hunkStartNew oldCount newCount : Nat) : Str :=
  '@' :: '@' :: ' ' :: '-' ::
    (natStr (hunkStartOld + 1) ++ (',' :: (natStr oldCount ++
      (' ' :: '+' :: (natStr (hunkStartNew + 1) ++ (',' :: (natStr newCount ++
        [' ', '@', '@'])))))))

/-- Outer loop of `calculateInternalDiff`.  `Math.max(0, i - contextLines)`
is truncated subtraction on `Nat`.  Each iteration moves both cursors to the
end of the look-ahead, which always reaches the end of both texts, so the
loop body runs at most twice and any fuel of at least two suffices. -/
def DiffCalculator.calcOuterGo (ol nl : List Str) :
    Nat → Nat → Nat → List Str → List Str
  | 0, _, _, hunks => hunks
  | fuel + 1, i, j, hunks =>
    if i < ol.length ∨ j < nl.length then
      let la := DiffCalculator.lookAheadGo 0 ((ol.length - i) + (nl.length - j))
        (ol.drop i) (nl.drop j) false
      let lookAheadOld := i + la.1
      let lookAheadNew := j + la.2.1
      let changeFound := la.2.2
      if !changeFound then DiffCalculator.calcOuterGo ol nl fuel lookAheadOld lookAheadNew hunks
      else
        let hunkStartOld := i - DiffCalculator.contextLines
        let hunkStartNew := j - DiffCalculator.contextLines
        let lead := DiffCalculator.leadCtxGo ol hunkStartOld i DiffCalculator.contextLines 0
        let ps := DiffCalculator.procGo ol nl lookAheadOld lookAheadNew
          (ol.length + nl.length) i j lead lead.length lead.length false
        let hunks1 :=
          if ps.foundChange then
            hunks ++ [DiffCalculator.mkHeaderLine hunkStartOld hunkStartNew
              ps.oldCount ps.newCount ++ '\n' :: joinLines ps.hunkLines]
          else hunks
        DiffCalculator.calcOuterGo ol nl fuel ps.i ps.j hunks1
    else hunks

/-- Model of `DiffCalculator.calculateInternalDiff`: the list of hunk
strings (each a header line followed by marker-prefixed lines). -/
def DiffCalculator.calculateInternalDiff (oldText newText : Str) : List Str :=
  let oldLines := splitLines oldText
  let newLines := splitLines newText
  DiffCalculator.calcOuterGo oldLines newLines
    (oldLines.length + newLines.length + 1) 0 0 []

/-- Rendering of the hunk array to the diff text handed to the applier, as
the callers do with `diff.join('\n')`. -/
def renderDiff (hunks : List Str) : Str := joinLines hunks

/-- The change kinds of `TextProcessor.extractChanges`. -/
inductive ChangeType where
  | add
  | delete
  | modify
deriving DecidableEq

/-- One change record of `TextProcessor.extractChanges`. -/
structure CodeChange where
  type : ChangeType
  content : Str
  lineNumber : Nat
deriving DecidableEq

/-- Index loop of `extractChanges` over `0 ≤ i < maxLines` (`remaining` is
the number of indices still to process).  `oldLines[i] || ''` coerces both a
missing line and a present-but-empty line to the empty string, which
`List.getD i []` reproduces. -/
def TextProcessor.extractChangesGo (oldLines newLines : List Str) :
    Nat → Nat → List CodeChange × Bool
  | _, 0 => ([], false)
  | i, remaining + 1 =>
    let oldLine := oldLines.getD i []
    let newLine := newLines.getD i []
    let rest := TextProcessor.extractChangesGo oldLines newLines (i + 1) remaining
    if oldLine ≠ newLine then
      let change : CodeChange :=
        if oldLine = [] then ⟨ChangeType.add, newLine, i + 1⟩
        else if newLine = [] then ⟨ChangeType.delete, oldLine, i + 1⟩
        else ⟨ChangeType.modify, newLine, i + 1⟩
      (change :: rest.1, true)
    else rest

/-- Model of `TextProcessor.extractChanges` (the positional variant of
`embeddingUtils.ts`): returns the change list and `hasContentChange`. -/
def TextProcessor.extractChanges (oldText newText : Str) : List CodeChange × Bool :=
  let oldLines := splitLines oldText
  let newLines := splitLines newText
  let maxLines := max oldLines.length newLines.length
  TextProcessor.extractChangesGo oldLines newLines 0 maxLines

theorem splitLines_ne_nil (s : Str) : splitLines s ≠ [] := by
  cases s with
  | nil => simp [splitLines]
  | cons c rest =>
    simp only [splitLines]
    split
    · simp
    · cases h : splitLines rest <;> simp

theorem joinLines_nil : joinLines [] = [] := rfl

theorem joinLines_cons (l : Str) (ls : List Str) (h : ls ≠ []) :
    joinLines (l :: ls) = l ++ '\n' :: joinLines ls := by
  cases ls with
  | nil => exact absurd rfl h
  | cons y rest => simp [joinLines, jsJoin]

theorem joinLines_splitLines (s : Str) : joinLines (splitLines s) = s := by
  induction s with
  | nil => simp [splitLines, joinLines, jsJoin]
  | cons c rest ih =>
    by_cases hc : c = '\n'
    · subst hc
      rw [show splitLines ('\n' :: rest) = [] :: splitLines rest from by simp [splitLines]]
      rw [joinLines_cons _ _ (splitLines_ne_nil rest)]
      simp [ih]
    · rw [show splitLines (c :: rest) =
          (match splitLines rest with
           | [] => [[c]]
           | p :: ps => (c :: p) :: ps) from by simp [splitLines, hc]]
      cases h : splitLines rest with
      | nil => exact absurd h (splitLines_ne_nil rest)
      | cons p ps =>
        rw [h] at ih
        cases ps with
        | nil =>
          simp [joinLines, jsJoin] at ih ⊢
          simp [ih]
        | cons q qs =>
          rw [joinLines_cons _ _ (by simp)] at ih ⊢
          simp only [List.cons_append, List.cons.injEq, true_and]
          simpa using ih

theorem splitLines_of_no_newline {l : Str} (h : '\n' ∉ l) : splitLines l = [l] := by
  induction l with
  | nil => rfl
  | cons c rest ih =>
    have hc : c ≠ '\n' := fun e => h (e ▸ List.mem_cons_self c rest)
    have hr : '\n' ∉ rest := fun e => h (List.mem_cons_of_mem c e)
    simp [splitLines, hc, ih hr]

theorem splitLines_append_newline {x : Str} (y : Str) (h : '\n' ∉ x) :
    splitLines (x ++ '\n' :: y) = x :: splitLines y := by
  induction x with
  | nil => simp [splitLines]
  | cons c rest ih =>
    have hc : c ≠ '\n' := fun e => h (e ▸ List.mem_cons_self c rest)
    have hr : '\n' ∉ rest := fun e => h (List.mem_cons_of_mem c e)
    simp only [List.cons_append, splitLines, if_neg hc]
    rw [show rest.append ('\n' :: y) = rest ++ '\n' :: y from rfl, ih hr]

theorem splitLines_joinLines {ls : List Str} (hnl : ∀ l ∈ ls, '\n' ∉ l) (hne : ls ≠ []) :
    splitLines (joinLines ls) = ls := by
  induction ls with
  | nil => exact absurd rfl hne
  | cons l rest ih =>
    cases rest with
    | nil =>
      simp only [joinLines, jsJoin]
      exact splitLines_of_no_newline (hnl l (by simp))
    | cons m rs =>
      rw [joinLines_cons _ _ (by simp)]
      rw [splitLines_append_newline _ (hnl l (by simp))]
      rw [ih (fun p hp => hnl p (List.mem_cons_of_mem l hp)) (by simp)]

theorem mem_splitLines_no_newline {s p : Str} (h : p ∈ splitLines s) : '\n' ∉ p := by
  induction s generalizing p with
  | nil => simp [splitLines] at h; simp [h]
  | cons c rest ih =>
    by_cases hc : c = '\n'
    · subst hc
      rw [show splitLines ('\n' :: rest) = [] :: splitLines rest from by simp [splitLines]] at h
      rcases List.mem_cons.mp h with h | h
      · simp [h]
      · exact ih h
    · rw [show splitLines (c :: rest) =
          (match splitLines rest with
           | [] => [[c]]
           | p :: ps => (c :: p) :: ps) from by simp [splitLines, hc]] at h
      cases hr : splitLines rest with
      | nil => exact absurd hr (splitLines_ne_nil rest)
      | cons q qs =>
        rw [hr] at h
        rcases List.mem_cons.mp h with h | h
        · subst h
          intro hm
          rcases List.mem_cons.mp hm with hm | hm
          · exact hc hm.symm
          · exact ih (hr ▸ List.mem_cons_self q qs) hm
        · exact ih (hr ▸ List.mem_cons_of_mem q h)

theorem isPrefixOf_self (l : Str) : l.isPrefixOf l = true := by
  induction l with
  | nil => rfl
  | cons c rest ih => simp [List.isPrefixOf, ih]

theorem jsSplit_self {a : Str} (h : a ≠ []) : jsSplit a a = [[], []] := by
  cases a with
  | nil => exact absurd rfl h
  | cons c rest =>
    simp only [jsSplit, if_neg h, List.length_cons]
    rw [show rest.length + 1 = rest.length + 1 from rfl]
    simp only [jsSplitGo, isPrefixOf_self, if_pos]
    simp [jsSplitGo, List.length_cons, Nat.add_sub_cancel, List.drop_length]

theorem dropWhile_append_singleton_ne_nil {c : Char} (hc : isJsWs c = false) (l : Str) :
    List.dropWhile isJsWs (l ++ [c]) ≠ [] := by
  induction l with
  | nil => simp [List.dropWhile, hc]
  | cons d rest ih =>
    simp only [List.cons_append, List.dropWhile]
    cases hd : isJsWs d
    · simp
    · simpa using ih

theorem jsTrim_cons_ne_nil {c : Char} (hc : isJsWs c = false) (t : Str) :
    jsTrim (c :: t) ≠ [] := by
  simp only [jsTrim]
  rw [show List.dropWhile isJsWs (c :: t) = c :: t from by simp [List.dropWhile, hc]]
  rw [show (c :: t).reverse = t.reverse ++ [c] from by simp]
  simpa using dropWhile_append_singleton_ne_nil hc t.reverse

/-- What the process-changes loop emits for a pair of line-list suffixes:
matching heads become context lines, otherwise the old head is emitted
removed and the new head added, in that order. -/
def procLines : List Str → List Str → List Str
  | [], ns => ns.map (fun b => '+' :: b)
  | a :: as, [] => ('-' :: a) :: procLines as []
  | a :: as, b :: bs =>
    if a = b then (' ' :: a) :: procLines as bs
    else ('-' :: a) :: ('+' :: b) :: procLines as bs

/-- The single hunk string `calculateInternalDiff` emits for two texts that
differ. -/
def mkHunkStr (ol nl : List Str) : Str :=
  DiffCalculator.mkHeaderLine 0 0 ol.length nl.length ++ '\n' :: joinLines (procLines ol nl)

theorem lookAheadGo_nil_nil (hl fuel : Nat) (cf : Bool) :
    DiffCalculator.lookAheadGo hl fuel [] [] cf = (0, 0, cf) := by
  cases fuel <;> rfl

theorem lookAheadGo_cons_cons (hl fuel : Nat) (a b : Str) (as bs : List Str) (cf : Bool) :
    DiffCalculator.lookAheadGo hl (fuel + 1) (a :: as) (b :: bs) cf =
      if a = b then
        if (!cf) ∧ hl ≥ DiffCalculator.contextLines * 2 then (0, 0, cf)
        else
          let r := DiffCalculator.lookAheadGo hl fuel as bs cf
          (r.1 + 1, r.2.1 + 1, r.2.2)
      else
        let r := DiffCalculator.lookAheadGo hl fuel as bs true
        (r.1 + 1, r.2.1 + 1, r.2.2) := rfl

theorem lookAheadGo_cons_nil (hl fuel : Nat) (a : Str) (as : List Str) (cf : Bool) :
    DiffCalculator.lookAheadGo hl (fuel + 1) (a :: as) [] cf =
      (let r := DiffCalculator.lookAheadGo hl fuel as [] true
       (r.1 + 1, r.2.1, r.2.2)) := rfl

theorem lookAheadGo_nil_cons (hl fuel : Nat) (b : Str) (bs : List Str) (cf : Bool) :
    DiffCalculator.lookAheadGo hl (fuel + 1) [] (b :: bs) cf =
      (let r := DiffCalculator.lookAheadGo hl fuel [] bs true
       (r.1, r.2.1 + 1, r.2.2)) := rfl

theorem lookAheadGo_spec (fuel : Nat) :
    ∀ (os ns : List Str) (cf : Bool), os.length + ns.length ≤ fuel →
    DiffCalculator.lookAheadGo 0 fuel os ns cf =
      (os.length, ns.length, cf || decide (os ≠ ns)) := by
  induction fuel with
  | zero =>
    intro os ns cf hf
    have ho : os = [] := List.eq_nil_of_length_eq_zero (by omega)
    have hn : ns = [] := List.eq_nil_of_length_eq_zero (by omega)
    subst ho; subst hn
    simp [lookAheadGo_nil_nil]
  | succ fuel ih =>
    intro os ns cf hf
    cases os with
    | nil =>
      cases ns with
      | nil => simp [lookAheadGo_nil_nil]
      | cons b bs =>
        rw [lookAheadGo_nil_cons]
        rw [ih [] bs true (by simp at hf ⊢; omega)]
        simp
    | cons a as =>
      cases ns with
      | nil =>
        rw [lookAheadGo_cons_nil]
        rw [ih as [] true (by simp at hf ⊢; omega)]
        simp
      | cons b bs =>
        rw [lookAheadGo_cons_cons]
        by_cases hab : a = b
        · subst hab
          rw [if_pos rfl]
          rw [if_neg (by rintro ⟨-, h⟩; simp [DiffCalculator.contextLines] at h)]
          rw [ih as bs cf (by simp at hf ⊢; omega)]
          simp
        · rw [if_neg hab]
          rw [ih as bs true (by simp at hf ⊢; omega)]
          simp [hab]

theorem procLines_nil_cons (b : Str) (bs : List Str) :
    procLines [] (b :: bs) = ('+' :: b) :: procLines [] bs := by
  simp [procLines]

theorem procState_mk_eq {a1 a2 : List Str} {b1 b2 c1 c2 d1 d2 e1 e2 : Nat} {f1 f2 : Bool}
    (ha : a1 = a2) (hb : b1 = b2) (hc : c1 = c2) (hd : d1 = d2) (he : e1 = e2) (hf : f1 = f2) :
    DiffCalculator.ProcState.mk a1 b1 c1 d1 e1 f1 = DiffCalculator.ProcState.mk a2 b2 c2 d2 e2 f2 := by
  subst ha; subst hb; subst hc; subst hd; subst he; subst hf; rfl

theorem procGo_spec (ol nl : List Str) (fuel : Nat) :
    ∀ (i j : Nat) (acc : List Str) (oc nc : Nat) (fc : Bool),
    i ≤ ol.length → j ≤ nl.length →
    (ol.length - i) + (nl.length - j) ≤ fuel →
    DiffCalculator.procGo ol nl ol.length nl.length fuel i j acc oc nc fc =
      ⟨acc ++ procLines (ol.drop i) (nl.drop j), ol.length, nl.length,
       oc + (ol.length - i), nc + (nl.length - j),
       fc || decide (ol.drop i ≠ nl.drop j)⟩ := by
  induction fuel with
  | zero =>
    intro i j acc oc nc fc hi hj hf
    have hio : i = ol.length := by omega
    have hjo : j = nl.length := by omega
    subst hio; subst hjo
    simp [DiffCalculator.procGo, procLines, List.drop_length]
  | succ fuel ih =>
    intro i j acc oc nc fc hi hj hf
    by_cases hcond : i < ol.length ∨ j < nl.length
    · simp only [DiffCalculator.procGo]
      rw [if_pos hcond]
      by_cases hc2 : i < ol.length ∧ j < nl.length ∧ ol.getD i [] = nl.getD j []
      · obtain ⟨h1, h2, h3⟩ := hc2
        rw [if_pos ⟨h1, h2, h3⟩]
        rw [ih (i + 1) (j + 1) _ _ _ _ (by omega) (by omega) (by omega)]
        have hdol : ol.drop i = ol.getD i [] :: ol.drop (i + 1) := by
          rw [List.getD_eq_getElem ol [] h1]
          exact List.drop_eq_getElem_cons h1
        have hdnl : nl.drop j = nl.getD j [] :: nl.drop (j + 1) := by
          rw [List.getD_eq_getElem nl [] h2]
          exact List.drop_eq_getElem_cons h2
        rw [hdol, hdnl, ← h3]
        simp only [procLines, if_pos rfl]
        exact procState_mk_eq (by simp) rfl rfl (by omega) (by omega) (by simp)
      · rw [if_neg hc2]
        rcases hcond with hio | hjo
        · by_cases hjn : j < nl.length
          · have hne : ol.getD i [] ≠ nl.getD j [] := fun e => hc2 ⟨hio, hjn, e⟩
            rw [if_pos hio, if_pos hjn]
            simp only
            rw [ih (i + 1) (j + 1) _ _ _ _ (by omega) (by omega) (by omega)]
            have hdol : ol.drop i = ol.getD i [] :: ol.drop (i + 1) := by
              rw [List.getD_eq_getElem ol [] hio]
              exact List.drop_eq_getElem_cons hio
            have hdnl : nl.drop j = nl.getD j [] :: nl.drop (j + 1) := by
              rw [List.getD_eq_getElem nl [] hjn]
              exact List.drop_eq_getElem_cons hjn
            rw [hdol, hdnl]
            simp only [procLines, if_neg hne]
            have hb : (ol.getD i [] :: ol.drop (i + 1)) ≠ (nl.getD j [] :: nl.drop (j + 1)) := by
              intro h
              injection h with h4 h5
              exact hne h4
            exact procState_mk_eq (by simp) rfl rfl (by omega) (by omega)
              (by rw [decide_eq_true hb]; simp)
          · have hjo2 : j = nl.length := by omega
            have hdnl : nl.drop j = [] := by rw [hjo2]; exact List.drop_length nl
            rw [if_pos hio, if_neg (by omega)]
            simp only
            rw [ih (i + 1) j _ _ _ _ (by omega) (by omega) (by omega)]
            have hdol : ol.drop i = ol.getD i [] :: ol.drop (i + 1) := by
              rw [List.getD_eq_getElem ol [] hio]
              exact List.drop_eq_getElem_cons hio
            rw [hdnl, hdol]
            simp only [procLines]
            exact procState_mk_eq (by simp) rfl rfl (by omega) (by omega) (by simp)
        · by_cases hin : i < ol.length
          · have hne : ol.getD i [] ≠ nl.getD j [] := fun e => hc2 ⟨hin, hjo, e⟩
            rw [if_pos hin, if_pos hjo]
            simp only
            rw [ih (i + 1) (j + 1) _ _ _ _ (by omega) (by omega) (by omega)]
            have hdol : ol.drop i = ol.getD i [] :: ol.drop (i + 1) := by
              rw [List.getD_eq_getElem ol [] hin]
              exact List.drop_eq_getElem_cons hin
            have hdnl : nl.drop j = nl.getD j [] :: nl.drop (j + 1) := by
              rw [List.getD_eq_getElem nl [] hjo]
              exact List.drop_eq_getElem_cons hjo
            rw [hdol, hdnl]
            simp only [procLines, if_neg hne]
            have hb : (ol.getD i [] :: ol.drop (i + 1)) ≠ (nl.getD j [] :: nl.drop (j + 1)) := by
              intro h
              injection h with h4 h5
              exact hne h4
            exact procState_mk_eq (by simp) rfl rfl (by omega) (by omega)
              (by rw [decide_eq_true hb]; simp)
          · have hio2 : i = ol.length := by omega
            have hdol : ol.drop i = [] := by rw [hio2]; exact List.drop_length ol
            rw [if_neg (by omega), if_pos hjo]
            simp only
            rw [ih i (j + 1) _ _ _ _ (by omega) (by omega) (by omega)]
            have hdnl : nl.drop j = nl.getD j [] :: nl.drop (j + 1) := by
              rw [List.getD_eq_getElem nl [] hjo]
              exact List.drop_eq_getElem_cons hjo
            rw [hdol, hdnl, procLines_nil_cons]
            exact procState_mk_eq (by simp [procLines]) rfl rfl (by omega) (by omega) (by simp)
    · have hio : i = ol.length := by omega
      have hjo : j = nl.length := by omega
      subst hio; subst hjo
      simp only [DiffCalculator.procGo]
      rw [if_neg hcond]
      simp [procLines, List.drop_length]

theorem leadCtxGo_at_zero (ol : List Str) (hsO : Nat) :
    DiffCalculator.leadCtxGo ol hsO 0 DiffCalculator.contextLines 0 = [] := by
  simp [DiffCalculator.leadCtxGo, DiffCalculator.contextLines]

theorem calcOuterGo_done (ol nl : List Str) (fuel : Nat) (hunks : List Str) :
    DiffCalculator.calcOuterGo ol nl fuel ol.length nl.length hunks = hunks := by
  cases fuel with
  | zero => rfl
  | succ fuel =>
    simp only [DiffCalculator.calcOuterGo]
    rw [if_neg (by omega)]

theorem calculateInternalDiff_eq (A B : Str) :
    DiffCalculator.calculateInternalDiff A B =
      if splitLines A = splitLines B then []
      else [mkHunkStr (splitLines A) (splitLines B)] := by
  have hol : splitLines A ≠ [] := splitLines_ne_nil A
  have holen : 0 < (splitLines A).length := List.length_pos.mpr hol
  simp only [DiffCalculator.calculateInternalDiff]
  simp only [DiffCalculator.calcOuterGo]
  rw [if_pos (Or.inl holen)]
  simp only [Nat.sub_zero, List.drop_zero]
  rw [lookAheadGo_spec _ _ _ _ (le_refl _)]
  simp only [Bool.false_or]
  by_cases heq : splitLines A = splitLines B
  · rw [show decide (splitLines A ≠ splitLines B) = false from by simp [heq]]
    simp only [Bool.not_false, if_pos]
    rw [show (0 : Nat) + (splitLines A).length = (splitLines A).length from by omega,
        show (0 : Nat) + (splitLines B).length = (splitLines B).length from by omega]
    rw [calcOuterGo_done]
    rw [if_pos heq]
  · rw [show decide (splitLines A ≠ splitLines B) = true from by simp [heq]]
    simp only [Bool.not_true, Bool.false_eq_true, if_false]
    rw [leadCtxGo_at_zero]
    simp only [List.length_nil]
    rw [show (0 : Nat) + (splitLines A).length = (splitLines A).length from by omega,
        show (0 : Nat) + (splitLines B).length = (splitLines B).length from by omega]
    rw [procGo_spec (splitLines A) (splitLines B)
      ((splitLines A).length + (splitLines B).length) 0 0 [] 0 0 false
      (by omega) (by omega) (by omega)]
    dsimp only
    simp only [List.drop_zero, List.nil_append, Nat.sub_zero, Nat.zero_add, Bool.false_or]
    rw [show decide (splitLines A ≠ splitLines B) = true from by simp [heq]]
    simp only [if_pos]
    rw [calcOuterGo_done]
    rw [if_neg heq]
    simp [mkHunkStr, Nat.zero_sub]

theorem procLines_ne_nil {ol nl : List Str} (h : ol ≠ []) : procLines ol nl ≠ [] := by
  cases ol with
  | nil => exact absurd rfl h
  | cons a as =>
    cases nl with
    | nil => simp [procLines]
    | cons b bs =>
      by_cases hab : a = b <;> simp [procLines, hab]

theorem procLines_shape {ol nl : List Str} {p : Str} (hp : p ∈ procLines ol nl) :
    ∃ m t, p = m :: t ∧ (m = ' ' ∨ m = '-' ∨ m = '+') ∧ (t ∈ ol ∨ t ∈ nl) := by
  induction ol generalizing nl with
  | nil =>
    induction nl with
    | nil => simp [procLines] at hp
    | cons b bs ihb =>
      rw [procLines_nil_cons] at hp
      rcases List.mem_cons.mp hp with h | h
      · exact ⟨'+', b, h, by simp, by simp⟩
      · obtain ⟨m, t, h1, h2, h3⟩ := ihb h
        refine ⟨m, t, h1, h2, ?_⟩
        rcases h3 with h3 | h3
        · simp at h3
        · exact Or.inr (List.mem_cons_of_mem b h3)
  | cons a as iha =>
    cases nl with
    | nil =>
      simp only [procLines] at hp
      rcases List.mem_cons.mp hp with h | h
      · exact ⟨'-', a, h, by simp, by simp⟩
      · obtain ⟨m, t, h1, h2, h3⟩ := iha h
        refine ⟨m, t, h1, h2, ?_⟩
        rcases h3 with h3 | h3
        · exact Or.inl (List.mem_cons_of_mem a h3)
        · simp at h3
    | cons b bs =>
      by_cases hab : a = b
      · rw [show procLines (a :: as) (b :: bs) = (' ' :: a) :: procLines as bs from by
          simp [procLines, hab]] at hp
        rcases List.mem_cons.mp hp with h | h
        · exact ⟨' ', a, h, by simp, by simp⟩
        · obtain ⟨m, t, h1, h2, h3⟩ := iha h
          refine ⟨m, t, h1, h2, ?_⟩
          rcases h3 with h3 | h3
          · exact Or.inl (List.mem_cons_of_mem a h3)
          · exact Or.inr (List.mem_cons_of_mem b h3)
      · rw [show procLines (a :: as) (b :: bs) =
            ('-' :: a) :: ('+' :: b) :: procLines as bs from by simp [procLines, hab]] at hp
        rcases List.mem_cons.mp hp with h | h
        · exact ⟨'-', a, h, by simp, by simp⟩
        rcases List.mem_cons.mp h with h | h
        · exact ⟨'+', b, h, by simp, by simp⟩
        · obtain ⟨m, t, h1, h2, h3⟩ := iha h
          refine ⟨m, t, h1, h2, ?_⟩
          rcases h3 with h3 | h3
          · exact Or.inl (List.mem_cons_of_mem a h3)
          · exact Or.inr (List.mem_cons_of_mem b h3)

theorem atAt_false (c : Char) (hc : c ≠ '@') (t : Str) :
    List.isPrefixOf ['@', '@'] (c :: t) = false := by
  have hb : ('@' == c) = false := beq_eq_false_iff_ne.mpr (fun h => hc h.symm)
  simp [List.isPrefixOf, hb]

theorem hunkLinesToBA_procLines (ol : List Str) :
    ∀ nl, DiffUtils.hunkLinesToBA (procLines ol nl) = (ol, nl) := by
  induction ol with
  | nil =>
    intro nl
    induction nl with
    | nil => rfl
    | cons b bs ihb =>
      rw [procLines_nil_cons]
      simp only [DiffUtils.hunkLinesToBA, ihb]
      rw [if_neg (by simp [atAt_false '+' (by decide)])]
      simp
  | cons a as iha =>
    intro nl
    cases nl with
    | nil =>
      simp only [procLines]
      simp only [DiffUtils.hunkLinesToBA, iha []]
      rw [if_neg (by simp [atAt_false '-' (by decide)])]
      simp
    | cons b bs =>
      by_cases hab : a = b
      · rw [show procLines (a :: as) (b :: bs) = (' ' :: a) :: procLines as bs from by
          simp [procLines, hab]]
        simp only [DiffUtils.hunkLinesToBA, iha bs]
        rw [if_neg (by simp [atAt_false ' ' (by decide)])]
        simp [hab]
      · rw [show procLines (a :: as) (b :: bs) =
            ('-' :: a) :: ('+' :: b) :: procLines as bs from by simp [procLines, hab]]
        simp only [DiffUtils.hunkLinesToBA, iha bs]
        rw [if_neg (by simp [atAt_false '+' (by decide)])]
        rw [if_neg (by simp [atAt_false '-' (by decide)])]
        simp

theorem natStrGo_no_newline (fuel : Nat) :
    ∀ (n : Nat) (acc : Str), '\n' ∉ acc → '\n' ∉ natStrGo fuel n acc := by
  induction fuel with
  | zero => intro n acc hacc; simpa [natStrGo] using hacc
  | succ fuel ih =>
    intro n acc hacc
    have hd : Char.ofNat (48 + n % 10) ≠ '\n' := by
      have h10 : n % 10 < 10 := Nat.mod_lt _ (by omega)
      interval_cases h : n % 10 <;> decide
    simp only [natStrGo]
    split
    · intro hmem
      rcases List.mem_cons.mp hmem with h | h
      · exact hd h.symm
      · exact hacc h
    · refine ih (n / 10) _ ?_
      intro hmem
      rcases List.mem_cons.mp hmem with h | h
      · exact hd h.symm
      · exact hacc h

theorem natStr_no_newline (n : Nat) : '\n' ∉ natStr n :=
  natStrGo_no_newline (n + 1) n [] (by simp)

theorem not_mem_cons_of_ne {c d : Char} {t : Str} (hc : d ≠ c) (ht : c ∉ t) :
    c ∉ d :: t := by
  intro hmem
  rcases List.mem_cons.mp hmem with h | h
  · exact hc h.symm
  · exact ht h

theorem not_mem_append_of {c : Char} {s t : Str} (hs : c ∉ s) (ht : c ∉ t) :
    c ∉ s ++ t := by
  intro hmem
  rcases List.mem_append.mp hmem with h | h
  · exact hs h
  · exact ht h

theorem mkHeaderLine_no_newline (a b c d : Nat) :
    '\n' ∉ DiffCalculator.mkHeaderLine a b c d := by
  simp only [DiffCalculator.mkHeaderLine]
  refine not_mem_cons_of_ne (by decide) (not_mem_cons_of_ne (by decide)
    (not_mem_cons_of_ne (by decide) (not_mem_cons_of_ne (by decide) ?_)))
  refine not_mem_append_of (natStr_no_newline _) ?_
  refine not_mem_cons_of_ne (by decide) ?_
  refine not_mem_append_of (natStr_no_newline _) ?_
  refine not_mem_cons_of_ne (by decide) (not_mem_cons_of_ne (by decide) ?_)
  refine not_mem_append_of (natStr_no_newline _) ?_
  refine not_mem_cons_of_ne (by decide) ?_
  refine not_mem_append_of (natStr_no_newline _) ?_
  decide

theorem mkHeaderLine_atAt (a b c d : Nat) :
    List.isPrefixOf ['@', '@'] (DiffCalculator.mkHeaderLine a b c d) = true := by
  simp [DiffCalculator.mkHeaderLine, List.isPrefixOf]

theorem procLines_no_newline {ol nl : List Str}
    (hol : ∀ l ∈ ol, '\n' ∉ l) (hnl : ∀ l ∈ nl, '\n' ∉ l) :
    ∀ p ∈ procLines ol nl, '\n' ∉ p := by
  intro p hp
  obtain ⟨m, t, h1, h2, h3⟩ := procLines_shape hp
  subst h1
  refine not_mem_cons_of_ne ?_ ?_
  · rcases h2 with h | h | h <;> (subst h; decide)
  · rcases h3 with h | h
    · exact hol t h
    · exact hnl t h

theorem procLines_not_atAt {ol nl : List Str} :
    ∀ p ∈ procLines ol nl, List.isPrefixOf ['@', '@'] p = false := by
  intro p hp
  obtain ⟨m, t, h1, h2, h3⟩ := procLines_shape hp
  subst h1
  rcases h2 with h | h | h <;> (subst h; exact atAt_false _ (by decide) t)

theorem fdhGo_cons_eq (line : Str) (rest cur : List Str) (inHunk : Bool) (hunks : List Str) :
    DiffUtils.fdhGo (line :: rest) cur inHunk hunks =
      (let atHeader := List.isPrefixOf ['@', '@'] line
       let hunks1 := if atHeader && !cur.isEmpty then hunks ++ [joinLines cur] else hunks
       let currentHunk1 := if atHeader then [] else cur
       let inHunk1 := if atHeader then true else inHunk
       let currentHunk2 := if inHunk1 then currentHunk1 ++ [line] else currentHunk1
       let nextIsHeader :=
         match rest with
         | next :: _ => List.isPrefixOf ['@', '@'] next
         | [] => false
       if inHunk1 && nextIsHeader then
         DiffUtils.fdhGo rest [] false (hunks1 ++ [joinLines currentHunk2])
       else
         DiffUtils.fdhGo rest currentHunk2 inHunk1 hunks1) := rfl

theorem fdhGo_collect (rest : List Str) :
    ∀ (cur hunks : List Str), cur ≠ [] →
    (∀ l ∈ rest, List.isPrefixOf ['@', '@'] l = false) →
    DiffUtils.fdhGo rest cur true hunks = hunks ++ [joinLines (cur ++ rest)] := by
  induction rest with
  | nil =>
    intro cur hunks hcur _
    simp only [DiffUtils.fdhGo]
    rw [if_neg (by simpa using hcur)]
    simp
  | cons r rs ih =>
    intro cur hunks hcur hna
    have hr : List.isPrefixOf ['@', '@'] r = false := hna r (by simp)
    rw [fdhGo_cons_eq]
    simp only [hr]
    cases rs with
    | nil =>
      simp only [Bool.false_and, Bool.false_eq_true, if_false, if_true, Bool.and_false]
      rw [ih (cur ++ [r]) hunks (by simp) (by simp)]
      simp
    | cons n ns =>
      have hn : List.isPrefixOf ['@', '@'] n = false := hna n (by simp)
      simp only [hn, Bool.false_and, Bool.false_eq_true, if_false, if_true, Bool.and_false]
      rw [ih (cur ++ [r]) hunks (by simp) (fun l hl => hna l (by simp [hl]))]
      simp

theorem findDiffHunks_mkHunkStr {ol nl : List Str}
    (holn : ∀ l ∈ ol, '\n' ∉ l) (hnln : ∀ l ∈ nl, '\n' ∉ l) (hol : ol ≠ []) :
    DiffUtils.findDiffHunks (mkHunkStr ol nl) = [mkHunkStr ol nl] := by
  have hpl : procLines ol nl ≠ [] := procLines_ne_nil hol
  have hsplit : splitLines (mkHunkStr ol nl) =
      DiffCalculator.mkHeaderLine 0 0 ol.length nl.length :: procLines ol nl := by
    simp only [mkHunkStr]
    rw [splitLines_append_newline _ (mkHeaderLine_no_newline 0 0 ol.length nl.length)]
    rw [splitLines_joinLines (procLines_no_newline holn hnln) hpl]
  simp only [DiffUtils.findDiffHunks, hsplit]
  cases hq : procLines ol nl with
  | nil => exact absurd hq hpl
  | cons q qs =>
    have hqn : List.isPrefixOf ['@', '@'] q = false :=
      procLines_not_atAt q (hq ▸ List.mem_cons_self q qs)
    rw [fdhGo_cons_eq]
    simp only [mkHeaderLine_atAt, hqn, List.isEmpty_nil, Bool.not_false, Bool.and_false,
      Bool.true_and, if_true, Bool.false_eq_true, if_false, List.nil_append]
    rw [fdhGo_collect (q :: qs) _ _ (by simp)
      (fun l hl => procLines_not_atAt l (hq ▸ hl))]
    have hjoin : joinLines (([DiffCalculator.mkHeaderLine 0 0 ol.length nl.length] : List Str) ++ q :: qs) =
        mkHunkStr ol nl := by
      rw [show ([DiffCalculator.mkHeaderLine 0 0 ol.length nl.length] : List Str) ++ q :: qs =
        DiffCalculator.mkHeaderLine 0 0 ol.length nl.length :: q :: qs from rfl]
      rw [joinLines_cons _ _ (by simp)]
      simp [mkHunkStr, hq]
    rw [hjoin]
    simp

theorem splitLines_mkHunkStr {ol nl : List Str}
    (holn : ∀ l ∈ ol, '\n' ∉ l) (hnln : ∀ l ∈ nl, '\n' ∉ l) (hol : ol ≠ []) :
    splitLines (mkHunkStr ol nl) =
      DiffCalculator.mkHeaderLine 0 0 ol.length nl.length :: procLines ol nl := by
  simp only [mkHunkStr]
  rw [splitLines_append_newline _ (mkHeaderLine_no_newline 0 0 ol.length nl.length)]
  rw [splitLines_joinLines (procLines_no_newline holn hnln) (procLines_ne_nil hol)]

theorem hunkToBeforeAfter_mkHunkStr {ol nl : List Str}
    (holn : ∀ l ∈ ol, '\n' ∉ l) (hnln : ∀ l ∈ nl, '\n' ∉ l) (hol : ol ≠ []) :
    DiffUtils.hunkToBeforeAfter (mkHunkStr ol nl) = (ol, nl) := by
  simp only [DiffUtils.hunkToBeforeAfter, splitLines_mkHunkStr holn hnln hol]
  simp only [DiffUtils.hunkLinesToBA, hunkLinesToBA_procLines ol nl]
  rw [if_pos (Or.inr (by rw [mkHeaderLine_atAt]))]

theorem jsTrim_mkHunkStr_ne_nil (ol nl : List Str) : jsTrim (mkHunkStr ol nl) ≠ [] := by
  have h : mkHunkStr ol nl = '@' :: (('@' :: ' ' :: '-' ::
      (natStr (0 + 1) ++ (',' :: (natStr ol.length ++ (' ' :: '+' ::
        (natStr (0 + 1) ++ (',' :: (natStr nl.length ++ [' ', '@', '@'])))))))) ++
      '\n' :: joinLines (procLines ol nl)) := by
    simp [mkHunkStr, DiffCalculator.mkHeaderLine]
  rw [h]
  exact jsTrim_cons_ne_nil (by decide) _

theorem jsJoin_pair (r : Str) : jsJoin r [[], []] = r := by
  simp [jsJoin]

theorem directlyApplyHunk_self (A after : Str) (h1 : jsTrim A = A) (h2 : A ≠ []) :
    DiffUtils.directlyApplyHunk A A after = .ok (some (jsTrim after)) := by
  simp only [DiffUtils.directlyApplyHunk, h1]
  rw [if_neg h2]
  rw [if_neg (by rw [jsSplit_self h2]; rintro ⟨-, hgt⟩; simp at hgt)]
  simp only [DiffUtils.searchAndReplace, jsSplit_self h2]
  norm_num
  rw [jsJoin_pair]

/-- C1 (counterexample): the round-trip claim fails as stated: for A = "a"
and B = "a\n" the rendered diff of A and B applied back to A yields "a", not
B — the trims inside the applier lose B's trailing newline. -/
theorem C1_counterexample :
    DiffUtils.applyUnifiedDiff (str "a")
      (renderDiff (DiffCalculator.calculateInternalDiff (str "a") (str "a\n"))) =
      .ok (str "a") ∧ str "a" ≠ str "a\n" := by
  exact ⟨rfl, by decide⟩

/-- C1 (amended): for every base A that is non-empty and free of leading and
trailing JS whitespace, applying the rendered internal diff of A and B back
to A yields B.trim() — the round-trip holds only up to trimming of B. -/
theorem C1_amended_roundtrip_trimmed (A B : Str) (h1 : jsTrim A = A) (h2 : A ≠ []) :
    DiffUtils.applyUnifiedDiff A
      (renderDiff (DiffCalculator.calculateInternalDiff A B)) = .ok (jsTrim B) := by
  rw [calculateInternalDiff_eq]
  by_cases heq : splitLines A = splitLines B
  · have hAB : A = B := by
      have hA := joinLines_splitLines A
      rw [heq, joinLines_splitLines B] at hA
      exact hA.symm
    rw [if_pos heq]
    simp only [renderDiff, joinLines, jsJoin]
    simp only [DiffUtils.applyUnifiedDiff]
    rw [if_pos (by rfl)]
    rw [← hAB, h1]
  · rw [if_neg heq]
    have hrd : renderDiff [mkHunkStr (splitLines A) (splitLines B)] =
        mkHunkStr (splitLines A) (splitLines B) := by
      simp [renderDiff, joinLines, jsJoin]
    rw [hrd]
    simp only [DiffUtils.applyUnifiedDiff]
    rw [if_neg (jsTrim_mkHunkStr_ne_nil _ _)]
    rw [findDiffHunks_mkHunkStr (fun l hl => mem_splitLines_no_newline hl)
      (fun l hl => mem_splitLines_no_newline hl) (splitLines_ne_nil A)]
    simp only [DiffUtils.applyDiffGo]
    have hba : DiffUtils.applyHunk A (mkHunkStr (splitLines A) (splitLines B)) =
        .ok (some (jsTrim B)) := by
      simp only [DiffUtils.applyHunk]
      rw [hunkToBeforeAfter_mkHunkStr (fun l hl => mem_splitLines_no_newline hl)
        (fun l hl => mem_splitLines_no_newline hl) (splitLines_ne_nil A)]
      simp only [joinLines_splitLines]
      rw [directlyApplyHunk_self A B h1 h2]
    rw [hba]

/-- C1 (witness): the amended round-trip at A = "a", B = "b ". -/
theorem C1_amended_roundtrip_trimmed_witness :
    DiffUtils.applyUnifiedDiff (str "a")
      (renderDiff (DiffCalculator.calculateInternalDiff (str "a") (str "b "))) =
      .ok (jsTrim (str "b ")) :=
  C1_amended_roundtrip_trimmed (str "a") (str "b ") (by decide) (by decide)

/-- C9: the context-window line-scan diff computer emits at most one hunk;
identical texts give zero hunks and distinct texts exactly one. -/
theorem C9_single_hunk (A B : Str) :
    (DiffCalculator.calculateInternalDiff A B).length ≤ 1 ∧
    (A = B → DiffCalculator.calculateInternalDiff A B = []) ∧
    (A ≠ B → (DiffCalculator.calculateInternalDiff A B).length = 1) := by
  rw [calculateInternalDiff_eq]
  by_cases heq : splitLines A = splitLines B
  · have hAB : A = B := by
      have hA := joinLines_splitLines A
      rw [heq, joinLines_splitLines B] at hA
      exact hA.symm
    rw [if_pos heq]
    exact ⟨by simp, fun _ => rfl, fun h => absurd hAB h⟩
  · rw [if_neg heq]
    exact ⟨by simp, fun h => absurd (h ▸ rfl) heq, fun _ => by simp⟩

/-- C2: the zero-occurrence branch of searchAndReplace returns the empty
string, which the callers treat as success: a hunk whose anchor does not
occur in the text "applies" and erases the whole document instead of being
treated as a non-match. -/
theorem C2_zero_occurrence_erases_document :
    (jsSplit (str "hello") (str "xyz")).length = 1 ∧
    DiffUtils.searchAndReplace (str "hello") (str "xyz") (str "abc") = .ok [] ∧
    DiffUtils.applyUnifiedDiff (str "hello") (str "@@ @@\n-xyz\n+abc") = .ok [] :=
  ⟨rfl, rfl, rfl⟩

/-- C3 (counterexample): with base "x\nx" and a hunk anchored at "x" the
anchor occurs twice at every context size, yet applyUnifiedDiff surfaces
HunkApplyError, not SearchTextNotUnique. -/
theorem C3_counterexample :
    DiffUtils.applyUnifiedDiff (str "x\nx") (str "@@ @@\n-x\n+y") =
      .error (DiffErr.hunkApplyError (str "Failed to apply hunk")
        (str "@@ @@\n-x\n+y") (str "file")) := rfl

theorem directlyApplyHunk_of_ambiguous (content before after : Str)
    (h : (jsSplit content (jsTrim before)).length > 2) :
    DiffUtils.directlyApplyHunk content before after = .ok none := by
  simp only [DiffUtils.directlyApplyHunk]
  by_cases h0 : jsTrim before = []
  · rw [if_pos h0]
  · rw [if_neg h0]
    by_cases hlen : (jsTrim before).length < 10
    · rw [if_pos ⟨hlen, h⟩]
    · rw [if_neg (by rintro ⟨hl, -⟩; exact hlen hl)]
      simp only [DiffUtils.searchAndReplace]
      rw [if_neg (by omega), if_pos h]

theorem flexibleGo_of_ambiguous (content : Str) (before : List Str) :
    ∀ cands : List (Nat × Nat),
    (∀ pq ∈ cands, (jsSplit content (jsTrim (joinLines (jsSliceNeg before pq.1)))).length > 2) →
    DiffUtils.flexibleGo content before cands = .ok none := by
  intro cands
  induction cands with
  | nil => intro _; rfl
  | cons pq rest ih =>
    intro hall
    obtain ⟨pre, post⟩ := pq
    have hc := hall (pre, post) (by simp)
    simp only [DiffUtils.flexibleGo, DiffUtils.searchAndReplace]
    rw [if_neg (by simp only at hc; omega), if_pos hc]
    exact ih (fun x hx => hall x (by simp [hx]))

/-- C3 (amended): when a hunk's direct anchor and every tier-2 candidate
anchor occur more than once in the base, applyUnifiedDiff fails — but with
HunkApplyError: both tiers catch SearchTextNotUnique internally, so the
ambiguity error never propagates, and the hunk is not applied at the first
occurrence. -/
theorem C3_amended_ambiguous_raises_hunkApplyError
    (content diff h : Str) (rest : List Str)
    (hh : DiffUtils.findDiffHunks diff = h :: rest)
    (hne : jsTrim diff ≠ [])
    (hdirect : (jsSplit content
      (jsTrim (joinLines (DiffUtils.hunkToBeforeAfter h).1))).length > 2)
    (hflex : ∀ pq ∈ DiffUtils.getContextSizes (DiffUtils.hunkToBeforeAfter h).1,
      (jsSplit content
        (jsTrim (joinLines (jsSliceNeg (DiffUtils.hunkToBeforeAfter h).1 pq.1)))).length > 2) :
    DiffUtils.applyUnifiedDiff content diff =
      .error (.hunkApplyError (str "Failed to apply hunk") h (str "file")) := by
  simp only [DiffUtils.applyUnifiedDiff]
  rw [if_neg hne, hh]
  simp only [DiffUtils.applyDiffGo]
  have happly : DiffUtils.applyHunk content h = .ok none := by
    simp only [DiffUtils.applyHunk]
    rw [directlyApplyHunk_of_ambiguous content _ _ hdirect]
    exact flexibleGo_of_ambiguous content _ _ hflex
  rw [happly]

/-- C3 (witness): the amended statement at the concrete ambiguous base. -/
theorem C3_amended_witness :
    DiffUtils.applyUnifiedDiff (str "q\nq") (str "@@ @@\n-q\n+r") =
      .error (.hunkApplyError (str "Failed to apply hunk") (str "@@ @@\n-q\n+r") (str "file")) :=
  C3_amended_ambiguous_raises_hunkApplyError (str "q\nq") (str "@@ @@\n-q\n+r")
    (str "@@ @@\n-q\n+r") [] (by rfl) (by decide) (by decide) (by decide)

/-- C4: drift makes the whole-document anchor (the single hunk spans the
entire base) miss, and the zero-occurrence branch then "succeeds" with the
empty string: applying the diff of A = "a\n...\nh" (change in line 1) to A
with an unrelated line "z" inserted seven lines below erases the document
instead of producing the change with "z" preserved. -/
theorem C4_drift_erases_document :
    DiffUtils.applyUnifiedDiff (str "a\nb\nc\nd\ne\nf\ng\nz\nh")
      (renderDiff (DiffCalculator.calculateInternalDiff
        (str "a\nb\nc\nd\ne\nf\ng\nh") (str "A\nb\nc\nd\ne\nf\ng\nh"))) = .ok [] ∧
    str "A\nb\nc\nd\ne\nf\ng\nz\nh" ≠ [] :=
  ⟨rfl, by decide⟩

/-- C5 (counterexample): a diff containing the unmarked line "?junk" is not
rejected: the line is silently dropped and the patch succeeds. -/
theorem C5_counterexample :
    DiffUtils.applyUnifiedDiff (str "x") (str "@@ @@\n-x\n+y\n?junk") = .ok (str "y") := rfl

/-- C5 (amended): a hunk line whose first character is not ' ', '-', '+' or
'@' is silently skipped by the hunk parser: it contributes to neither the
before view nor the after view, and no error is raised (no
MalformedDiffError exists in the code). -/
theorem C5_amended_unrecognized_line_skipped (ls1 ls2 : List Str) (c : Char) (t : Str)
    (hat : c ≠ '@') (hsp : c ≠ ' ') (hminus : c ≠ '-') (hplus : c ≠ '+') :
    DiffUtils.hunkLinesToBA (ls1 ++ (c :: t) :: ls2) =
      DiffUtils.hunkLinesToBA (ls1 ++ ls2) := by
  induction ls1 with
  | nil =>
    simp only [List.nil_append]
    simp only [DiffUtils.hunkLinesToBA]
    rw [if_neg (by simp [atAt_false c hat])]
    simp [hsp, hminus, hplus]
  | cons l ls ih =>
    simp only [List.cons_append, DiffUtils.hunkLinesToBA, List.append_eq, ih]

/-- C5 (witness): skipping the line "?junk" in a concrete hunk. -/
theorem C5_amended_witness :
    DiffUtils.hunkLinesToBA ([] ++ ('?' :: str "junk") :: [str "-x"]) =
      DiffUtils.hunkLinesToBA ([] ++ [str "-x"]) :=
  C5_amended_unrecognized_line_skipped [] [str "-x"] '?' (str "junk")
    (by decide) (by decide) (by decide) (by decide)

/-- C6 (counterexample): tier 2 "succeeds" on a hunk whose only content is
the added line "x" (resp. "y") while producing an output that contains
neither: the candidate replacement is built from the before view, not from
the added lines. -/
theorem C6_counterexample :
    DiffUtils.flexibleApplyHunk (str "ab") [] [str "x"] = .ok (some (str "ab")) ∧
    DiffUtils.flexibleApplyHunk (str "ab") [] [str "y"] = .ok (some (str "ab")) ∧
    DiffUtils.applyUnifiedDiff (str "ab") (str "@@ @@\n+x") = .ok (str "ab") :=
  ⟨rfl, rfl, rfl⟩

theorem gcsInner_eq (total : Nat) :
    ∀ k, DiffUtils.gcsInner total k =
      (List.range (k + 1)).reverse.map (fun pre => (pre, total - pre)) := by
  intro k
  induction k with
  | zero => simp [DiffUtils.gcsInner, show List.range 1 = [0] from by decide]
  | succ k ih => simp [DiffUtils.gcsInner, List.range_succ, ih]

/-- C6 (amended): tier 2 enumerates (pre, post) pairs with the total from
min(5, |before|) down to 0 and, within each total, pre from the total down
to 0 (the most unbalanced all-leading split first); every candidate anchor
and replacement is sliced from the before view, so the result of
flexibleApplyHunk does not depend on the after view at all. -/
theorem C6_amended_enumeration_and_after_ignored :
    (∀ (content : Str) (before a1 a2 : List Str),
      DiffUtils.flexibleApplyHunk content before a1 =
        DiffUtils.flexibleApplyHunk content before a2) ∧
    (∀ lines : List Str,
      DiffUtils.getContextSizes lines =
        (List.range (min 5 lines.length + 1)).reverse.flatMap
          (fun total => (List.range (total + 1)).reverse.map
            (fun pre => (pre, total - pre)))) := by
  constructor
  · intro content before a1 a2
    rfl
  · intro lines
    simp only [DiffUtils.getContextSizes]
    generalize min 5 lines.length = t
    induction t with
    | zero => simp [DiffUtils.gcsOuter, gcsInner_eq, show List.range 1 = [0] from by decide]
    | succ t ih => simp [DiffUtils.gcsOuter, gcsInner_eq, List.range_succ, ih]

/-- C7: with six-line texts differing only in the last line, the emitted
hunk carries all five unchanged lines before the change as context, although
contextSize is 3: the leading-context clipping machinery never takes effect
because the look-ahead does not consume the matching prefix. -/
theorem C7_context_not_clipped :
    DiffCalculator.calculateInternalDiff (str "a\nb\nc\nd\ne\nX") (str "a\nb\nc\nd\ne\nY") =
      [str "@@ -1,6 +1,6 @@\n a\n b\n c\n d\n e\n-X\n+Y"] := rfl

/-- C8 (counterexample): for old text "a\n\nb" (three lines, the second
present but empty) and new text "a\nx\nb", extractChanges tags position 2 as
Add, although both lines are present and differ (the claim demands Modify):
the `|| ''` coercion cannot distinguish a missing line from an empty one. -/
theorem C8_counterexample :
    TextProcessor.extractChanges (str "a\n\nb") (str "a\nx\nb") =
      ([⟨ChangeType.add, str "x", 2⟩], true) ∧
    (splitLines (str "a\n\nb")).length = 3 :=
  ⟨rfl, rfl⟩

/-- Characterization of extractChanges following the amended claim: purely
positional over the padded line count, with a missing line and an empty line
both coerced to the empty string; Add when the coerced old line is empty,
Delete when the coerced new line is empty, Modify otherwise. -/
def extractChangesSpec (ol nl : List Str) : List CodeChange :=
  (List.range (max ol.length nl.length)).filterMap (fun i =>
    let a := ol.getD i []
    let b := nl.getD i []
    if a = b then none
    else if a = [] then some ⟨ChangeType.add, b, i + 1⟩
    else if b = [] then some ⟨ChangeType.delete, a, i + 1⟩
    else some ⟨ChangeType.modify, b, i + 1⟩)

theorem extractChangesGo_spec (ol nl : List Str) :
    ∀ (k i : Nat),
    TextProcessor.extractChangesGo ol nl i k =
      ((List.range' i k).filterMap (fun idx =>
        let a := ol.getD idx []
        let b := nl.getD idx []
        if a = b then none
        else if a = [] then some (⟨ChangeType.add, b, idx + 1⟩ : CodeChange)
        else if b = [] then some ⟨ChangeType.delete, a, idx + 1⟩
        else some ⟨ChangeType.modify, b, idx + 1⟩),
       !((List.range' i k).filterMap (fun idx =>
        let a := ol.getD idx []
        let b := nl.getD idx []
        if a = b then none
        else if a = [] then some (⟨ChangeType.add, b, idx + 1⟩ : CodeChange)
        else if b = [] then some ⟨ChangeType.delete, a, idx + 1⟩
        else some ⟨ChangeType.modify, b, idx + 1⟩)).isEmpty) := by
  intro k
  induction k with
  | zero => intro i; simp [TextProcessor.extractChangesGo]
  | succ k ih =>
    intro i
    rw [List.range'_succ]
    simp only [TextProcessor.extractChangesGo, ih (i + 1)]
    by_cases hab : ol.getD i [] = nl.getD i []
    · rw [if_neg (by simpa using hab)]
      simp only [List.filterMap_cons]
      rw [show (if ol.getD i [] = nl.getD i [] then none
          else if ol.getD i [] = [] then some (⟨ChangeType.add, nl.getD i [], i + 1⟩ : CodeChange)
          else if nl.getD i [] = [] then some ⟨ChangeType.delete, ol.getD i [], i + 1⟩
          else some ⟨ChangeType.modify, nl.getD i [], i + 1⟩) = none from by rw [if_pos hab]]
    · rw [if_pos hab]
      simp only [List.filterMap_cons]
      rw [show (if ol.getD i [] = nl.getD i [] then none
          else if ol.getD i [] = [] then some (⟨ChangeType.add, nl.getD i [], i + 1⟩ : CodeChange)
          else if nl.getD i [] = [] then some ⟨ChangeType.delete, ol.getD i [], i + 1⟩
          else some ⟨ChangeType.modify, nl.getD i [], i + 1⟩) =
        some (if ol.getD i [] = [] then ⟨ChangeType.add, nl.getD i [], i + 1⟩
          else if nl.getD i [] = [] then ⟨ChangeType.delete, ol.getD i [], i + 1⟩
          else ⟨ChangeType.modify, nl.getD i [], i + 1⟩) from by
        rw [if_neg hab]
        by_cases ha : ol.getD i [] = []
        · rw [if_pos ha, if_pos ha]
        · rw [if_neg ha, if_neg ha]
          by_cases hb : nl.getD i [] = []
          · rw [if_pos hb, if_pos hb]
          · rw [if_neg hb, if_neg hb]]
      simp

/-- C8 (amended): extractChanges is purely positional with both a missing
and an empty line coerced to "": a record is Add when the coerced old line
is empty (missing or blank), Delete when the coerced new line is empty,
Modify when both are non-empty and differ; hasContentChange is true iff at
least one record was produced. -/
theorem C8_amended_positional_coerced (o n : Str) :
    (TextProcessor.extractChanges o n).1 =
      extractChangesSpec (splitLines o) (splitLines n) ∧
    ((TextProcessor.extractChanges o n).2 = true ↔
      (TextProcessor.extractChanges o n).1 ≠ []) := by
  have hgo := extractChangesGo_spec (splitLines o) (splitLines n)
    (max (splitLines o).length (splitLines n).length) 0
  rw [← List.range_eq_range'] at hgo
  constructor
  · simp only [TextProcessor.extractChanges, hgo]
    simp [extractChangesSpec]
  · simp only [TextProcessor.extractChanges, hgo]
    simp

/-- C10: appending one trailing empty line is invisible to extractChanges:
the texts differ but the change list is empty and hasContentChange is false,
because the missing old line and the present-but-empty new line are coerced
to the same empty string. -/
theorem C10_trailing_empty_line_invisible :
    str "abc" ≠ str "abc\n" ∧
    TextProcessor.extractChanges (str "abc") (str "abc\n") = ([], false) :=
  ⟨by decide, rfl⟩
